import Mathlib

/-!
# Image service of `go-microservices` (`product-images/main.go`)

A shallow embedding of the routing table, the configuration and the file
retrieval path built by `main` in `product-images/main.go`.

Strings are modelled as `List Char`.  The libraries that `main` wires
together are modelled by their documented behaviour:

* `gorilla/mux`: a path template is compiled into one anchored regular
  expression (`^ ... $`); a route matches a request when every one of its
  matchers does; a router dispatches to its first matching route, and a
  request that no route matches reaches none of the registered handlers
  (it is answered with 404 or 405 by the router itself);
* Go `regexp`: language membership of the whole string (the compiled
  route expression is anchored on both sides);
* `net/http`: `StripPrefix`, `FileServer`, `Dir.Open`;
* `path` / `path/filepath`: `Clean`, `Join`.
-/

namespace ProductImages

/-! ## Regular expressions (the fragment used by the route templates) -/

/-- Regular expressions over characters; `cls` is a bracket class given by
its list of inclusive ranges, as in `[a-zA-Z]`. -/
inductive Re where
  | zero : Re
  | eps : Re
  | cls : List (Char × Char) → Re
  | alt : Re → Re → Re
  | seq : Re → Re → Re
  | star : Re → Re
  deriving Repr

/-- Membership of a character in a bracket class. -/
def inCls (rs : List (Char × Char)) (c : Char) : Bool :=
  rs.any fun r => decide (r.1.toNat ≤ c.toNat) && decide (c.toNat ≤ r.2.toNat)

/-- A literal character (an escaped `\.` or an ordinary character). -/
def Re.lit (c : Char) : Re := Re.cls [(c, c)]

/-- A literal string, as produced by `regexp.QuoteMeta`. -/
def Re.str : List Char → Re
  | [] => Re.eps
  | c :: cs => Re.seq (Re.lit c) (Re.str cs)

/-- The `+` operator: one or more repetitions. -/
def Re.plus (r : Re) : Re := Re.seq r (Re.star r)

/-- The `{n}` operator: exactly `n` repetitions. -/
def Re.rep : Nat → Re → Re
  | 0, _ => Re.eps
  | n + 1, r => Re.seq r (Re.rep n r)

/-- Whether the expression accepts the empty string. -/
def Re.nullable : Re → Bool
  | Re.zero => false
  | Re.eps => true
  | Re.cls _ => false
  | Re.alt a b => a.nullable || b.nullable
  | Re.seq a b => a.nullable && b.nullable
  | Re.star _ => true

/-- Brzozowski derivative with respect to one character. -/
def Re.deriv : Re → Char → Re
  | Re.zero, _ => Re.zero
  | Re.eps, _ => Re.zero
  | Re.cls rs, c => if inCls rs c then Re.eps else Re.zero
  | Re.alt a b, c => Re.alt (a.deriv c) (b.deriv c)
  | Re.seq a b, c =>
      if a.nullable then Re.alt (Re.seq (a.deriv c) b) (b.deriv c)
      else Re.seq (a.deriv c) b
  | Re.star a, c => Re.seq (a.deriv c) (Re.star a)

/-- Anchored match of the whole string, `regexp.MatchString` on `^r$`. -/
def Re.matchString : Re → List Char → Bool
  | r, [] => r.nullable
  | r, c :: cs => (r.deriv c).matchString cs

/-- The language denoted by an expression. -/
def Re.Lang : Re → List Char → Prop
  | Re.zero, _ => False
  | Re.eps, s => s = []
  | Re.cls rs, s => ∃ c, s = [c] ∧ inCls rs c = true
  | Re.alt a b, s => a.Lang s ∨ b.Lang s
  | Re.seq a b, s => ∃ u v, s = u ++ v ∧ a.Lang u ∧ b.Lang v
  | Re.star a, s => ∃ L : List (List Char), s = L.flatten ∧ ∀ x ∈ L, a.Lang x

/-! ## Route templates (`gorilla/mux`) -/

/-- One piece of a path template: literal text, or a variable
`{name:pattern}` with its pattern. -/
inductive Part where
  | text : List Char → Part
  | var : List Char → Re → Part

/-- A path template, e.g. `/images/{id:[0-9]+}/...`, split at its braces. -/
abbrev Template := List Part

/-- The expression `mux` builds from a template: quoted literals and
variable groups in sequence between `^` and `$`. -/
def compileTemplate : Template → Re
  | [] => Re.eps
  | Part.text s :: t => Re.seq (Re.str s) (compileTemplate t)
  | Part.var _ p :: t => Re.seq p (compileTemplate t)

/-- The class `[0-9]`. -/
def digitCls : List (Char × Char) := [('0', '9')]

/-- The class `[a-zA-Z]`. -/
def letterCls : List (Char × Char) := [('a', 'z'), ('A', 'Z')]

/-- The class `[a-z]`. -/
def lowerCls : List (Char × Char) := [('a', 'z')]

/-- The pattern `[0-9]+` of the `id` variable. -/
def idPattern : Re := Re.plus (Re.cls digitCls)

/-- The pattern `[a-zA-Z]+\.[a-z]{3}` of the `filename` variable. -/
def filenamePattern : Re :=
  Re.seq (Re.plus (Re.cls letterCls)) (Re.seq (Re.lit '.') (Re.rep 3 (Re.cls lowerCls)))

/-- Template of the upload route, `main.go` line 56:
`/images/{id:[0-9]+}/{filename:[a-zA-Z]+\.[a-z]{3}}`. -/
def uploadTemplate : Template :=
  [Part.text "/images/".toList, Part.var "id".toList idPattern,
   Part.text "/".toList, Part.var "filename".toList filenamePattern]

/-- Template of the multipart route, `main.go` line 57: `/`. -/
def multipartTemplate : Template := [Part.text "/".toList]

/-- Template of the retrieval route, `main.go` line 63:
`/images/{id:[0-9]+}/{filename:[a-zA-Z]+\.[a-z]{3}}`. -/
def getTemplate : Template :=
  [Part.text "/images/".toList, Part.var "id".toList idPattern,
   Part.text "/".toList, Part.var "filename".toList filenamePattern]

/-! ## The routing table built by `main` -/

/-- The handlers registered by `main`; `FileServer` stands for
`http.StripPrefix("/images/", http.FileServer(http.Dir(*basePath)))`. -/
inductive Handler where
  | UploadREST
  | UploadMultipart
  | FileServer
  deriving DecidableEq, Repr

/-- A route registered with `Handle` / `HandleFunc`. -/
structure Route where
  template : Template
  handler : Handler

/-- A subrouter obtained by `sm.Methods(m).Subrouter()`. -/
structure SubRouter where
  methods : List String
  routes : List Route

/-- Whether the path matcher of a route accepts the request path. -/
def Route.matchPath (r : Route) (path : List Char) : Bool :=
  (compileTemplate r.template).matchString path

/-- Match of a method-restricted subrouter: the method matcher must accept
and some route of the subrouter must accept; the first such route wins. -/
def SubRouter.matchRequest (s : SubRouter) (method : String) (path : List Char) :
    Option Handler :=
  if s.methods.contains method then
    (s.routes.find? fun r => r.matchPath path).map Route.handler
  else none

/-- The upload route (line 56). -/
def uploadRoute : Route := ⟨uploadTemplate, Handler.UploadREST⟩

/-- The multipart route (line 57). -/
def multipartRoute : Route := ⟨multipartTemplate, Handler.UploadMultipart⟩

/-- The retrieval route (lines 62-65). -/
def getRoute : Route := ⟨getTemplate, Handler.FileServer⟩

/-- The subrouter `putR` (lines 55-57). -/
def putR : SubRouter :=
  { methods := ["POST"]
    routes := [uploadRoute, multipartRoute] }

/-- The subrouter `getR` (lines 61-65). -/
def getR : SubRouter :=
  { methods := ["GET"]
    routes := [getRoute] }

/-- The router `sm`: its routes in registration order. -/
def sm : List SubRouter := [putR, getR]

/-- Dispatch of a request by the router: the handler of the first route
that matches, or `none` when no route matches. -/
def routerMatch (rs : List SubRouter) (method : String) (path : List Char) : Option Handler :=
  rs.findSome? fun s => s.matchRequest method path

/-- The request path `/images/<id>/<filename>`. -/
def imagePath (id filename : List Char) : List Char :=
  "/images/".toList ++ id ++ '/' :: filename

/-! ## Configuration (lines 19-21 and 39) -/

/-- The process environment: the value of each variable that is set. -/
abbrev Env := List Char → Option (List Char)

/-- Go `os.Getenv`: the value of the variable, empty when it is unset. -/
def getenv (e : Env) (name : List Char) : List Char := (e name).getD []

/-- The result of `env.String(name, false, default, help)` after
`env.Parse()`: the variable when it has a non-empty value, otherwise the
default. -/
def envString (e : Env) (name default : List Char) : List Char :=
  if getenv e name = [] then default else getenv e name

/-- Line 19. -/
def bindAddress (e : Env) : List Char := envString e "BIND_ADDRESS".toList ":9091".toList

/-- Line 20. -/
def logLevel (e : Env) : List Char := envString e "LOG_LEVEL".toList "debug".toList

/-- Line 21. -/
def basePath (e : Env) : List Char := envString e "BASE_PATH".toList "./imagestore".toList

/-- The size limit passed to `files.NewLocal` on line 39: `1024*1000*5`. -/
def maxFileSize : Nat := 1024 * 1000 * 5

/-- The settings the server runs with. -/
structure Config where
  bindAddress : List Char
  logLevel : List Char
  basePath : List Char
  maxFileSize : Nat

/-- The configuration `main` derives from the environment. -/
def loadConfig (e : Env) : Config :=
  { bindAddress := bindAddress e
    logLevel := logLevel e
    basePath := basePath e
    maxFileSize := maxFileSize }

/-! ## Lexical path operations (`path.Clean`, `filepath.Join`) -/

/-- Split a path at every `/`; the result always has one element more than
there are slashes. -/
def splitSlash : List Char → List (List Char)
  | [] => [[]]
  | c :: cs =>
    if c = '/' then [] :: splitSlash cs
    else match splitSlash cs with
      | [] => [[c]]
      | seg :: rest => (c :: seg) :: rest

/-- Whether a path starts with `/`. -/
def isRooted (p : List Char) : Bool := p.head? = some '/'

/-- One element of `Clean`, applied to the elements kept so far (last kept
element first): empty and `.` elements are dropped, `..` removes the
preceding element, is dropped at the root, and is kept at the start of a
relative path. -/
def cleanStep (rooted : Bool) (stack : List (List Char)) (seg : List Char) :
    List (List Char) :=
  if seg = [] ∨ seg = ['.'] then stack
  else if seg = ['.', '.'] then
    match stack with
    | [] => if rooted then [] else [seg]
    | top :: rest => if top = ['.', '.'] then seg :: top :: rest else rest
  else seg :: stack

/-- The elements of the cleaned path, in order. -/
def cleanSegs (p : List Char) : List (List Char) :=
  ((splitSlash p).foldl (cleanStep (isRooted p)) []).reverse

/-- Elements joined by `/`. -/
def joinSlash : List (List Char) → List Char
  | [] => []
  | [s] => s
  | s :: t => s ++ '/' :: joinSlash t

/-- Go `path.Clean` (equal to `filepath.Clean` on Unix): the shortest path
naming the same location by purely lexical processing; `.` for the empty
result. -/
def Clean (p : List Char) : List Char :=
  let out := if isRooted p then '/' :: joinSlash (cleanSegs p) else joinSlash (cleanSegs p)
  if out = [] then ['.'] else out

/-- Go `filepath.Join` on Unix: leading empty elements are skipped, the
rest is joined with `/` and cleaned; the empty string when every element
is empty. -/
def Join (elems : List (List Char)) : List Char :=
  match elems.dropWhile fun e => decide (e = []) with
  | [] => []
  | e :: es => Clean (joinSlash (e :: es))

/-- An ordinary path element: not empty, not `.`, not `..`, free of `/`. -/
def NormalSeg (s : List Char) : Prop :=
  s ≠ [] ∧ s ≠ ['.'] ∧ s ≠ ['.', '.'] ∧ '/' ∉ s

/-- The shape of the elements `Clean` keeps (last kept element first):
ordinary elements, preceded in a relative path by a run of `..`. -/
def CleanShape (rooted : Bool) (st : List (List Char)) : Prop :=
  ∃ (k : Nat) (ns : List (List Char)), st = ns ++ List.replicate k ['.', '.'] ∧
    (∀ s ∈ ns, NormalSeg s) ∧ (rooted = true → k = 0)

/-- Lexical containment: `p`, cleaned, lies strictly below `root`, cleaned.
Both have the same rootedness, the elements of `root` are a proper initial
part of those of `p`, and what follows never steps up. -/
def isDescendant (root p : List Char) : Bool :=
  let r := cleanSegs root
  let q := cleanSegs p
  (isRooted root == isRooted p) && r.isPrefixOf q && decide (r.length < q.length)
    && !(q.drop r.length).contains ['.', '.']

/-! ## The file system and the retrieval handler -/

/-- A byte of file content. -/
abbrev Byte := Fin 256

/-- The regular files of the file system, by cleaned path. -/
structure FS where
  files : List Char → Option (List Byte)

/-- Go `strings.TrimPrefix` together with the test `len(p) < len(path)` of
`http.StripPrefix`: the remainder when the non-empty prefix is present. -/
def trimPrefix : List Char → List Char → Option (List Char)
  | [], s => some s
  | _ :: _, [] => none
  | a :: as, b :: bs => if a = b then trimPrefix as bs else none

/-- Outcome of a request served by the file server. -/
inductive Response where
  | ok : List Byte → Response
  | notFound : Response
  | redirect : Response
  deriving DecidableEq

/-- The name `http.Dir(dir).Open(name)` hands to `os.Open`:
`filepath.Join(dir, path.Clean("/" + name))`, with `.` for an empty `dir`. -/
def dirOpenName (dir name : List Char) : List Char :=
  Join [if dir = [] then ['.'] else dir, Clean ('/' :: name)]

/-- The name `http.FileServer(root)` opens for URL path `upath`: a leading
`/` is added when missing, the path is cleaned and opened in `root`. -/
def fileServerName (root upath : List Char) : List Char :=
  let u := if isRooted upath then upath else '/' :: upath
  dirOpenName root (Clean u)

/-- Go `http.FileServer(http.Dir(root))` on regular files: a path ending in
`/index.html` is redirected, a missing file is not found, otherwise the
content of the file is returned. -/
def fileServer (fs : FS) (root upath : List Char) : Response :=
  let u := if isRooted upath then upath else '/' :: upath
  if "/index.html".toList.isSuffixOf u then Response.redirect
  else match fs.files (fileServerName root upath) with
    | some content => Response.ok content
    | none => Response.notFound

/-- Go `http.StripPrefix(prefix, h)`: the handler `h` on the path without
its prefix, not found when the prefix is absent. -/
def StripPrefix (pre : List Char) (h : List Char → Response) (path : List Char) : Response :=
  if pre = [] then h path
  else match trimPrefix pre path with
    | some rest => h rest
    | none => Response.notFound

/-- The handler registered on the retrieval route (line 64). -/
def getHandler (fs : FS) (base : List Char) (path : List Char) : Response :=
  StripPrefix "/images/".toList (fileServer fs base) path

/-- The server on a `GET` request: the retrieval handler when the router
selects it, `none` when the request reaches no file. -/
def serveGet (fs : FS) (base : List Char) (path : List Char) : Option Response :=
  match routerMatch sm "GET" path with
  | some Handler.FileServer => some (getHandler fs base path)
  | _ => none

/-- Decimal value of a digit string, the number that a segment admitted by
`[0-9]+` denotes; `none` on the empty string or a non-digit. -/
def parseDecimal (s : List Char) : Option Nat :=
  if s = [] then none
  else s.foldl (fun acc c =>
    acc.bind fun n => if inCls digitCls c then some (10 * n + (c.toNat - 48)) else none) (some 0)

/-! ## The filename grammar in the words of the specification -/

/-- An ASCII letter. -/
def isAsciiLetter (c : Char) : Bool := c.isAlpha

/-- A lowercase ASCII letter. -/
def isAsciiLower (c : Char) : Bool := c.isLower

/-- An ASCII decimal digit. -/
def isAsciiDigit (c : Char) : Bool := c.isDigit

/-- The filename grammar as the specification words it: one or more ASCII
letters, then one `.`, then exactly three lowercase ASCII letters, and
nothing else. -/
def SpecFilename (f : List Char) : Prop :=
  ∃ stem ext : List Char, f = stem ++ '.' :: ext ∧ stem ≠ [] ∧
    (∀ c ∈ stem, isAsciiLetter c = true) ∧ ext.length = 3 ∧
    (∀ c ∈ ext, isAsciiLower c = true)

/-- An id segment: one or more ASCII decimal digits. -/
def ValidId (id : List Char) : Prop :=
  id ≠ [] ∧ ∀ c ∈ id, isAsciiDigit c = true

/-! ## The storage package `product-images/files`, from its specification -/

/-- Modelled from the spec: the error kinds of the storage component
(section 7) of the absent package `files`. -/
inductive StoreError where
  | InvalidPath
  | LimitExceeded
  | NotFound
  | IOFailure
  deriving DecidableEq, Repr

/-- Modelled from the spec: the filename grammar `^[A-Za-z]+\.[a-z]{3}$`
checked by the path resolver of the absent package `files`. -/
def specFilenameRe : Re :=
  Re.seq (Re.plus (Re.cls [('A', 'Z'), ('a', 'z')]))
    (Re.seq (Re.lit '.') (Re.rep 3 (Re.cls [('a', 'z')])))

/-- Modelled from the spec: the path resolver (section 4.1) of the absent
package `files`.  The filename must match the grammar, the collection id is
written in decimal, the result is `<root>/<id>/<filename>` cleaned, and it
must lie inside the root after cleaning. -/
def Resolve (root : List Char) (collectionID : Nat) (filename : List Char) :
    Except StoreError (List Char) :=
  if specFilenameRe.matchString filename then
    let p := Join [root, Nat.toDigits 10 collectionID, filename]
    if isDescendant root p then Except.ok p else Except.error StoreError.InvalidPath
  else Except.error StoreError.InvalidPath

/-- Create or truncate-and-replace the file at `p`. -/
def FS.write (fs : FS) (p : List Char) (content : List Byte) : FS :=
  ⟨fun q => if q = p then some content else fs.files q⟩

/-- Remove the file at `p`. -/
def FS.remove (fs : FS) (p : List Char) : FS :=
  ⟨fun q => if q = p then none else fs.files q⟩

/-- Append a chunk to the file at `p`, creating it when absent. -/
def FS.append (fs : FS) (p : List Char) (chunk : List Byte) : FS :=
  fs.write p ((fs.files p).getD [] ++ chunk)

/-- Modelled from the spec: the size-bounded writer (section 4.2) of the
absent package `files`.  The source is the sequence of chunks it yields.
Each chunk is written to the destination; when the cumulative count then
exceeds the limit the destination file is removed and `LimitExceeded` is
returned; when the source is exhausted the byte count is returned. -/
def Copy (fs : FS) (dest : List Char) (limit written : Nat) :
    List (List Byte) → Except StoreError Nat × FS
  | [] => (Except.ok written, fs)
  | chunk :: rest =>
    if limit < written + chunk.length then
      (Except.error StoreError.LimitExceeded, (fs.append dest chunk).remove dest)
    else Copy (fs.append dest chunk) dest limit (written + chunk.length) rest

/-- Modelled from the spec: the local storage backend (section 4.3) of the
absent package `files`, holding the storage root and the size ceiling. -/
structure Local where
  basePath : List Char
  maxFileSize : Nat

/-- Modelled from the spec: the constructor `files.NewLocal` of the absent
package `files`, capturing the root and the ceiling. -/
def NewLocal (basePath : List Char) (maxSize : Nat) : Local :=
  { basePath := basePath, maxFileSize := maxSize }

/-- Modelled from the spec: `Save` of the absent package `files` (section
4.3): resolve the destination, open it truncated, run the bounded copy.
Directories are implicit in this file system; faults of the disk are not
modelled. -/
def Local.Save (l : Local) (fs : FS) (collectionID : Nat) (filename : List Char)
    (src : List (List Byte)) : Except StoreError Unit × FS :=
  match Resolve l.basePath collectionID filename with
  | Except.error e => (Except.error e, fs)
  | Except.ok p =>
    match Copy (fs.write p []) p l.maxFileSize 0 src with
    | (Except.ok _, fs1) => (Except.ok (), fs1)
    | (Except.error e, fs1) => (Except.error e, fs1)

/-- Modelled from the spec: `Get` of the absent package `files` (section
4.3): the content at an already validated path, `NotFound` when absent. -/
def Local.Get (_l : Local) (fs : FS) (path : List Char) : Except StoreError (List Byte) :=
  match fs.files path with
  | some content => Except.ok content
  | none => Except.error StoreError.NotFound

/-- The storage `main` constructs on line 39. -/
def stor (e : Env) : Local := NewLocal (basePath e) maxFileSize

/-- Whether an outcome is a success. -/
def isOk {ε α : Type} : Except ε α → Bool
  | Except.ok _ => true
  | Except.error _ => false

/-- The error of an outcome, if any. -/
def errorOf {ε α : Type} : Except ε α → Option ε
  | Except.ok _ => none
  | Except.error e => some e

/-! ## Correctness of the derivative matcher -/

theorem Re.nullable_iff (r : Re) : r.nullable = true ↔ r.Lang [] := by
  induction r with
  | zero => simp [Re.nullable, Re.Lang]
  | eps => simp [Re.nullable, Re.Lang]
  | cls rs => simp [Re.nullable, Re.Lang]
  | alt a b iha ihb => simp [Re.nullable, Re.Lang, iha, ihb]
  | seq a b iha ihb =>
    simp only [Re.nullable, Re.Lang, Bool.and_eq_true, iha, ihb]
    constructor
    · rintro ⟨ha, hb⟩
      exact ⟨[], [], rfl, ha, hb⟩
    · rintro ⟨u, v, huv, ha, hb⟩
      have h := List.append_eq_nil.1 huv.symm
      rw [h.1] at ha
      rw [h.2] at hb
      exact ⟨ha, hb⟩
  | star a _ =>
    simp only [Re.nullable, Re.Lang, true_iff]
    exact ⟨[], rfl, by simp⟩

theorem Re.lang_star_cons (a : Re) (c : Char) (s : List Char) :
    (Re.star a).Lang (c :: s) ↔ ∃ u v, s = u ++ v ∧ a.Lang (c :: u) ∧ (Re.star a).Lang v := by
  constructor
  · rintro ⟨L, hL, hall⟩
    induction L with
    | nil => simp at hL
    | cons x L ih =>
      cases x with
      | nil =>
        exact ih (by simpa using hL) (fun y hy => hall y (List.mem_cons_of_mem _ hy))
      | cons d u =>
        simp only [List.flatten_cons, List.cons_append, List.cons.injEq] at hL
        refine ⟨u, L.flatten, hL.2, ?_, L, rfl, fun y hy => hall y (List.mem_cons_of_mem _ hy)⟩
        rw [hL.1]
        exact hall _ (List.mem_cons_self _ _)
  · rintro ⟨u, v, rfl, hu, L, rfl, hall⟩
    refine ⟨(c :: u) :: L, by simp, ?_⟩
    intro y hy
    rcases List.mem_cons.1 hy with rfl | hy
    · exact hu
    · exact hall y hy

theorem Re.deriv_iff (r : Re) (c : Char) (s : List Char) :
    (r.deriv c).Lang s ↔ r.Lang (c :: s) := by
  induction r generalizing s with
  | zero => simp [Re.deriv, Re.Lang]
  | eps => simp [Re.deriv, Re.Lang]
  | cls rs =>
    by_cases h : inCls rs c = true
    · simp only [Re.deriv, h, if_true, Re.Lang]
      constructor
      · rintro rfl
        exact ⟨c, rfl, h⟩
      · rintro ⟨d, hd, _⟩
        simp only [List.cons.injEq] at hd
        exact hd.2
    · simp only [Re.deriv, h, Re.Lang, Bool.false_eq_true, if_false, false_iff]
      rintro ⟨d, hd, hin⟩
      simp only [List.cons.injEq] at hd
      rw [← hd.1] at hin
      exact h hin
  | alt a b iha ihb => simp [Re.deriv, Re.Lang, iha, ihb]
  | seq a b iha ihb =>
    have key : (Re.seq (a.deriv c) b).Lang s ↔
        ∃ u v, s = u ++ v ∧ a.Lang (c :: u) ∧ b.Lang v := by
      simp only [Re.Lang, iha]
    have main : (Re.seq a b).Lang (c :: s) ↔
        (∃ u v, s = u ++ v ∧ a.Lang (c :: u) ∧ b.Lang v) ∨ (a.Lang [] ∧ b.Lang (c :: s)) := by
      simp only [Re.Lang]
      constructor
      · rintro ⟨u, v, huv, hu, hv⟩
        cases u with
        | nil =>
          right
          simp only [List.nil_append] at huv
          exact ⟨hu, huv ▸ hv⟩
        | cons d u =>
          left
          simp only [List.cons_append, List.cons.injEq] at huv
          exact ⟨u, v, huv.2, huv.1 ▸ hu, hv⟩
      · rintro (⟨u, v, rfl, hu, hv⟩ | ⟨ha, hb⟩)
        · exact ⟨c :: u, v, rfl, hu, hv⟩
        · exact ⟨[], c :: s, rfl, ha, hb⟩
    by_cases hn : a.nullable = true
    · simp only [Re.deriv, hn, if_true]
      rw [main]
      show (Re.seq (a.deriv c) b).Lang s ∨ (b.deriv c).Lang s ↔ _
      rw [key, ihb]
      have hnil : a.Lang [] := (Re.nullable_iff a).1 hn
      simp only [hnil, true_and]
    · simp only [Re.deriv, hn, Bool.false_eq_true, if_false]
      rw [main, key]
      have hnil : ¬ a.Lang [] := fun h => hn ((Re.nullable_iff a).2 h)
      simp only [hnil, false_and, or_false]
  | star a iha =>
    rw [Re.lang_star_cons]
    simp only [Re.deriv]
    show (∃ u v, s = u ++ v ∧ (a.deriv c).Lang u ∧ (Re.star a).Lang v) ↔ _
    simp only [iha]

theorem Re.matchString_iff (r : Re) (s : List Char) : r.matchString s = true ↔ r.Lang s := by
  induction s generalizing r with
  | nil => simpa [Re.matchString] using Re.nullable_iff r
  | cons c s ih => rw [Re.matchString, ih, Re.deriv_iff]

/-! ## The languages of the route patterns -/

theorem inCls_letterCls (c : Char) : inCls letterCls c = isAsciiLetter c := by
  simp only [inCls, letterCls, isAsciiLetter, Char.isAlpha, Char.isUpper, Char.isLower, Char.toNat,
    List.any_cons, List.any_nil, Bool.or_false, ge_iff_le, UInt32.le_def, BitVec.le_def, UInt32.toNat]
  simp [Bool.or_comm]

theorem inCls_specLetter (c : Char) : inCls [('A', 'Z'), ('a', 'z')] c = isAsciiLetter c := by
  simp only [inCls, isAsciiLetter, Char.isAlpha, Char.isUpper, Char.isLower, Char.toNat,
    List.any_cons, List.any_nil, Bool.or_false, ge_iff_le, UInt32.le_def, BitVec.le_def, UInt32.toNat]
  simp

theorem inCls_lowerCls (c : Char) : inCls lowerCls c = isAsciiLower c := by
  simp only [inCls, lowerCls, isAsciiLower, Char.isLower, Char.toNat,
    List.any_cons, List.any_nil, Bool.or_false, ge_iff_le, UInt32.le_def, BitVec.le_def, UInt32.toNat]
  simp

theorem inCls_digitCls (c : Char) : inCls digitCls c = isAsciiDigit c := by
  simp only [inCls, digitCls, isAsciiDigit, Char.isDigit, Char.toNat,
    List.any_cons, List.any_nil, Bool.or_false, ge_iff_le, UInt32.le_def, BitVec.le_def, UInt32.toNat]
  simp

theorem inCls_single (a c : Char) : inCls [(a, a)] c = true ↔ c = a := by
  simp only [inCls, List.any_cons, List.any_nil, Bool.or_false, Bool.and_eq_true, decide_eq_true_eq]
  constructor
  · intro h
    exact Char.ext (UInt32.ext (by simp [Char.toNat] at h; omega))
  · rintro rfl; simp

theorem Re.lang_lit (c : Char) (s : List Char) : (Re.lit c).Lang s ↔ s = [c] := by
  simp only [Re.lit, Re.Lang, inCls_single]
  constructor
  · rintro ⟨d, rfl, rfl⟩; rfl
  · rintro rfl; exact ⟨c, rfl, rfl⟩

theorem Re.lang_str (t s : List Char) : (Re.str t).Lang s ↔ s = t := by
  induction t generalizing s with
  | nil => simp [Re.str, Re.Lang]
  | cons c t ih =>
    simp only [Re.str, Re.Lang, ih]
    constructor
    · rintro ⟨u, v, rfl, hu, rfl⟩
      rw [(Re.lang_lit c u).1 hu]; rfl
    · rintro rfl
      exact ⟨[c], t, rfl, (Re.lang_lit c [c]).2 rfl, rfl⟩

theorem Re.lang_star_cls (rs : List (Char × Char)) (s : List Char) :
    (Re.star (Re.cls rs)).Lang s ↔ ∀ c ∈ s, inCls rs c = true := by
  induction s with
  | nil =>
    simp only [List.not_mem_nil, false_implies, implies_true, iff_true]
    exact ⟨[], rfl, by simp⟩
  | cons c s ih =>
    rw [Re.lang_star_cons]
    simp only [Re.Lang, List.mem_cons, forall_eq_or_imp]
    constructor
    · rintro ⟨u, v, rfl, ⟨d, hd, hin⟩, hv⟩
      simp only [List.cons.injEq] at hd
      obtain ⟨rfl, rfl⟩ := hd
      exact ⟨hin, ih.1 hv⟩
    · rintro ⟨hc, hs⟩
      exact ⟨[], s, rfl, ⟨c, rfl, hc⟩, ih.2 hs⟩

theorem Re.lang_plus_cls (rs : List (Char × Char)) (s : List Char) :
    (Re.plus (Re.cls rs)).Lang s ↔ s ≠ [] ∧ ∀ c ∈ s, inCls rs c = true := by
  unfold Re.plus
  show (∃ u v, s = u ++ v ∧ (Re.cls rs).Lang u ∧ (Re.star (Re.cls rs)).Lang v) ↔ _
  simp only [Re.lang_star_cls]
  constructor
  · rintro ⟨u, v, rfl, ⟨d, rfl, hd⟩, hv⟩
    refine ⟨by simp, ?_⟩
    intro c hc
    rcases List.mem_cons.1 hc with rfl | hc
    · exact hd
    · exact hv c hc
  · rintro ⟨hne, hall⟩
    cases s with
    | nil => exact absurd rfl hne
    | cons d s =>
      exact ⟨[d], s, rfl, ⟨d, rfl, hall d (List.mem_cons_self _ _)⟩,
        fun c hc => hall c (List.mem_cons_of_mem _ hc)⟩

theorem Re.lang_rep_cls (rs : List (Char × Char)) (n : Nat) (s : List Char) :
    (Re.rep n (Re.cls rs)).Lang s ↔ s.length = n ∧ ∀ c ∈ s, inCls rs c = true := by
  induction n generalizing s with
  | zero =>
    simp only [Re.rep, Re.Lang, List.length_eq_zero]
    constructor
    · rintro rfl; simp
    · exact fun h => h.1
  | succ n ih =>
    simp only [Re.rep, Re.Lang, ih]
    constructor
    · rintro ⟨u, v, rfl, ⟨d, rfl, hd⟩, hlen, hv⟩
      refine ⟨by simp [hlen], ?_⟩
      intro c hc
      rcases List.mem_cons.1 hc with rfl | hc
      · exact hd
      · exact hv c hc
    · rintro ⟨hlen, hall⟩
      cases s with
      | nil => simp at hlen
      | cons d s =>
        exact ⟨[d], s, rfl, ⟨d, rfl, hall d (List.mem_cons_self _ _)⟩, by simpa using hlen,
          fun c hc => hall c (List.mem_cons_of_mem _ hc)⟩

theorem lang_filename_shape (L l : List (Char × Char)) (f : List Char) :
    (Re.seq (Re.plus (Re.cls L)) (Re.seq (Re.lit '.') (Re.rep 3 (Re.cls l)))).Lang f ↔
      ∃ stem ext : List Char, f = stem ++ '.' :: ext ∧ stem ≠ [] ∧
        (∀ c ∈ stem, inCls L c = true) ∧ ext.length = 3 ∧ (∀ c ∈ ext, inCls l c = true) := by
  show (∃ u v, f = u ++ v ∧ (Re.plus (Re.cls L)).Lang u ∧
    ∃ u1 v1, v = u1 ++ v1 ∧ (Re.lit '.').Lang u1 ∧ (Re.rep 3 (Re.cls l)).Lang v1) ↔ _
  simp only [Re.lang_plus_cls, Re.lang_lit, Re.lang_rep_cls]
  constructor
  · rintro ⟨u, v, rfl, ⟨hne, hu⟩, u1, v1, rfl, rfl, hlen, hv⟩
    exact ⟨u, v1, rfl, hne, hu, hlen, hv⟩
  · rintro ⟨stem, ext, rfl, hne, hs, hlen, he⟩
    exact ⟨stem, '.' :: ext, rfl, ⟨hne, hs⟩, ['.'], ext, rfl, rfl, hlen, he⟩

theorem lang_filenamePattern (f : List Char) : filenamePattern.Lang f ↔ SpecFilename f := by
  unfold filenamePattern SpecFilename
  rw [lang_filename_shape]
  simp only [inCls_letterCls, inCls_lowerCls]

theorem lang_specFilenameRe (f : List Char) : specFilenameRe.Lang f ↔ SpecFilename f := by
  unfold specFilenameRe SpecFilename
  rw [lang_filename_shape]
  simp only [inCls_specLetter, ← inCls_lowerCls, lowerCls]

theorem lang_idPattern (id : List Char) : idPattern.Lang id ↔ ValidId id := by
  unfold idPattern ValidId
  rw [Re.lang_plus_cls]
  simp only [inCls_digitCls]

theorem lang_imagesTemplate (p : List Char) :
    (compileTemplate uploadTemplate).Lang p ↔
      ∃ id f, p = imagePath id f ∧ ValidId id ∧ SpecFilename f := by
  show (∃ u v, p = u ++ v ∧ (Re.str "/images/".toList).Lang u ∧
    ∃ u1 v1, v = u1 ++ v1 ∧ idPattern.Lang u1 ∧
    ∃ u2 v2, v1 = u2 ++ v2 ∧ (Re.str "/".toList).Lang u2 ∧
    ∃ u3 v3, v2 = u3 ++ v3 ∧ filenamePattern.Lang u3 ∧ v3 = []) ↔ _
  simp only [Re.lang_str, lang_idPattern, lang_filenamePattern, imagePath]
  constructor
  · rintro ⟨u, v, rfl, rfl, u1, v1, rfl, hid, u2, v2, rfl, rfl, u3, v3, rfl, hf, rfl⟩
    exact ⟨u1, u3, by simp, hid, hf⟩
  · rintro ⟨id, f, rfl, hid, hf⟩
    exact ⟨_, id ++ '/' :: f, by simp, rfl, id, '/' :: f, rfl, hid, ['/'], f, rfl, rfl,
      f, [], by simp, hf, rfl⟩

/-! ## Requests of the shape `/images/<id>/<filename>` -/

theorem ValidId.id_no_slash {id : List Char} (h : ValidId id) : '/' ∉ id := by
  intro hm
  have := h.2 _ hm
  simp [isAsciiDigit, Char.isDigit] at this

theorem SpecFilename.chars {f : List Char} (h : SpecFilename f) :
    ∀ c ∈ f, isAsciiLetter c = true ∨ c = '.' := by
  obtain ⟨stem, ext, rfl, _, hs, _, he⟩ := h
  intro c hc
  rcases List.mem_append.1 hc with hc | hc
  · exact Or.inl (hs c hc)
  · rcases List.mem_cons.1 hc with rfl | hc
    · exact Or.inr rfl
    · left
      have := he c hc
      simp only [isAsciiLower, isAsciiLetter, Char.isAlpha] at this ⊢
      simp [this]

theorem SpecFilename.no_slash {f : List Char} (h : SpecFilename f) : '/' ∉ f := by
  intro hm
  rcases h.chars _ hm with h1 | h1
  · simp [isAsciiLetter, Char.isAlpha, Char.isUpper, Char.isLower] at h1
  · simp at h1

theorem not_letter_dot : isAsciiLetter '.' = false := by
  simp [isAsciiLetter, Char.isAlpha, Char.isUpper, Char.isLower]

theorem SpecFilename.no_dotdot {f : List Char} (h : SpecFilename f) : ¬ ['.', '.'] <:+: f := by
  obtain ⟨stem, ext, rfl, _, hs, _, he⟩ := h
  rintro ⟨a, b, hab⟩
  have hstem : ∀ c ∈ stem, c ≠ '.' := by
    intro c hc hdot
    have := hs c hc
    rw [hdot, not_letter_dot] at this
    exact Bool.noConfusion this
  have hext : ∀ c ∈ ext, c ≠ '.' := by
    intro c hc hdot
    have := he c hc
    rw [hdot] at this
    simp [isAsciiLower, Char.isLower] at this
  -- the two dots would both have to be the single dot of the filename
  have hcount : List.count '.' (a ++ ['.', '.'] ++ b) = List.count '.' (stem ++ '.' :: ext) := by
    rw [hab]
  have h1 : List.count '.' stem = 0 := List.count_eq_zero.2 fun hm => hstem _ hm rfl
  have h2 : List.count '.' ext = 0 := List.count_eq_zero.2 fun hm => hext _ hm rfl
  simp only [List.count_append, List.count_cons_self, List.count_nil, h1, h2] at hcount
  omega

theorem append_slash_inj {a b a1 b1 : List Char} (ha : '/' ∉ a) (ha1 : '/' ∉ a1)
    (h : a ++ '/' :: b = a1 ++ '/' :: b1) : a = a1 ∧ b = b1 := by
  induction a generalizing a1 with
  | nil =>
    cases a1 with
    | nil => simpa using h
    | cons d a1 =>
      simp only [List.nil_append, List.cons_append, List.cons.injEq] at h
      exact absurd (h.1 ▸ List.mem_cons_self _ _) ha1
  | cons c a ih =>
    cases a1 with
    | nil =>
      simp only [List.nil_append, List.cons_append, List.cons.injEq] at h
      exact absurd (h.1 ▸ List.mem_cons_self _ _) ha
    | cons d a1 =>
      simp only [List.cons_append, List.cons.injEq] at h
      obtain ⟨rfl, h⟩ := h
      have := ih (fun hm => ha (List.mem_cons_of_mem _ hm))
        (fun hm => ha1 (List.mem_cons_of_mem _ hm)) h
      exact ⟨by rw [this.1], this.2⟩

theorem imagePath_inj {id f id1 f1 : List Char} (hid : '/' ∉ id1) (hf : '/' ∉ f1)
    (h : imagePath id f = imagePath id1 f1) : id = id1 ∧ f = f1 := by
  unfold imagePath at h
  rw [List.append_assoc, List.append_assoc] at h
  have h1 := List.append_cancel_left h
  have hc : List.count '/' (id ++ '/' :: f) = List.count '/' (id1 ++ '/' :: f1) := by rw [h1]
  have c1 : List.count '/' id1 = 0 := List.count_eq_zero.2 hid
  have c2 : List.count '/' f1 = 0 := List.count_eq_zero.2 hf
  simp only [List.count_append, List.count_cons_self, c1, c2] at hc
  have c3 : List.count '/' id = 0 := by omega
  exact append_slash_inj (List.count_eq_zero.1 c3) hid h1

theorem images_match_iff (id f : List Char) :
    (compileTemplate uploadTemplate).matchString (imagePath id f) = true ↔
      ValidId id ∧ SpecFilename f := by
  rw [Re.matchString_iff, lang_imagesTemplate]
  constructor
  · rintro ⟨id1, f1, h, hid, hf⟩
    obtain ⟨rfl, rfl⟩ := imagePath_inj hid.id_no_slash hf.no_slash h
    exact ⟨hid, hf⟩
  · rintro ⟨hid, hf⟩
    exact ⟨id, f, rfl, hid, hf⟩

theorem multipart_match_iff (p : List Char) :
    (compileTemplate multipartTemplate).matchString p = true ↔ p = ['/'] := by
  rw [Re.matchString_iff]
  show (∃ u v, p = u ++ v ∧ (Re.str "/".toList).Lang u ∧ v = []) ↔ _
  simp only [Re.lang_str]
  constructor
  · rintro ⟨u, v, rfl, rfl, rfl⟩; rfl
  · rintro rfl; exact ⟨['/'], [], rfl, rfl, rfl⟩

theorem routerMatch_post (p : List Char) :
    routerMatch sm "POST" p =
      if (compileTemplate uploadTemplate).matchString p = true then some Handler.UploadREST
      else if (compileTemplate multipartTemplate).matchString p = true then
        some Handler.UploadMultipart
      else none := by
  simp only [routerMatch, sm, putR, getR, uploadRoute, multipartRoute, getRoute,
    SubRouter.matchRequest, List.findSome?, List.contains,
    List.elem, Route.matchPath, List.find?]
  by_cases h1 : (compileTemplate uploadTemplate).matchString p = true
  · simp [h1]
  · by_cases h2 : (compileTemplate multipartTemplate).matchString p = true
    · simp [h1, h2]
    · simp [h1, h2]

theorem routerMatch_get (p : List Char) :
    routerMatch sm "GET" p =
      if (compileTemplate getTemplate).matchString p = true then some Handler.FileServer
      else none := by
  simp only [routerMatch, sm, putR, getR, uploadRoute, multipartRoute, getRoute,
    SubRouter.matchRequest, List.findSome?, List.contains,
    List.elem, Route.matchPath, List.find?]
  by_cases h1 : (compileTemplate getTemplate).matchString p = true
  · simp [h1]
  · simp [h1]

theorem routerMatch_other (m : String) (p : List Char) (hg : m ≠ "GET") (hp : m ≠ "POST") :
    routerMatch sm m p = none := by
  simp [routerMatch, sm, putR, getR, SubRouter.matchRequest, List.findSome?, hg, hp]

theorem imagePath_ne_root (id f : List Char) : imagePath id f ≠ ['/'] := by
  simp [imagePath]

/-! ## Lexical path cleaning -/

theorem splitSlash_ne_nil (p : List Char) : splitSlash p ≠ [] := by
  induction p with
  | nil => simp [splitSlash]
  | cons c cs ih =>
    unfold splitSlash
    split
    · simp
    · split <;> simp

theorem splitSlash_append_slash (a b : List Char) :
    splitSlash (a ++ '/' :: b) = splitSlash a ++ splitSlash b := by
  induction a with
  | nil => simp [splitSlash]
  | cons c a ih =>
    by_cases hc : c = '/'
    · simp [splitSlash, hc, ih]
    · have hne := splitSlash_ne_nil a
      cases hsa : splitSlash a with
      | nil => exact absurd hsa hne
      | cons seg rest =>
        rw [List.cons_append]
        simp only [splitSlash, hc, if_false]
        rw [ih, hsa]
        rfl

theorem splitSlash_of_no_slash {s : List Char} (h : '/' ∉ s) : splitSlash s = [s] := by
  induction s with
  | nil => rfl
  | cons c s ih =>
    have hc : c ≠ '/' := fun e => h (e ▸ List.mem_cons_self _ _)
    have := ih (fun hm => h (List.mem_cons_of_mem _ hm))
    simp [splitSlash, hc, this]

theorem splitSlash_no_slash (p : List Char) : ∀ seg ∈ splitSlash p, '/' ∉ seg := by
  induction p with
  | nil => simp [splitSlash]
  | cons c cs ih =>
    by_cases hc : c = '/'
    · simp only [splitSlash, hc, if_true, List.mem_cons]
      rintro seg (rfl | h)
      · simp
      · exact ih seg h
    · have hne := splitSlash_ne_nil cs
      cases hsa : splitSlash cs with
      | nil => exact absurd hsa hne
      | cons seg rest =>
        rw [hsa] at ih
        simp only [splitSlash, hc, if_false, hsa, List.mem_cons]
        rintro x (rfl | h)
        · intro hm
          rcases List.mem_cons.1 hm with e | hm
          · exact hc e.symm
          · exact ih seg (List.mem_cons_self _ _) hm
        · exact ih x (List.mem_cons_of_mem _ h)

theorem splitSlash_joinSlash (segs : List (List Char)) (hne : segs ≠ [])
    (h : ∀ s ∈ segs, '/' ∉ s) : splitSlash (joinSlash segs) = segs := by
  induction segs with
  | nil => exact absurd rfl hne
  | cons s t ih =>
    cases t with
    | nil => simpa [joinSlash] using splitSlash_of_no_slash (h s (List.mem_cons_self _ _))
    | cons s1 t =>
      have h1 := ih (by simp) (fun x hx => h x (List.mem_cons_of_mem _ hx))
      simp only [joinSlash] at h1 ⊢
      rw [splitSlash_append_slash, h1, splitSlash_of_no_slash (h s (List.mem_cons_self _ _))]
      rfl

theorem cleanStep_normal (r : Bool) (st : List (List Char)) {s : List Char} (h : NormalSeg s) :
    cleanStep r st s = s :: st := by
  obtain ⟨h1, h2, h3, _⟩ := h
  simp [cleanStep, h1, h2, h3]

theorem cleanStep_empty (r : Bool) (st : List (List Char)) : cleanStep r st [] = st := by
  simp [cleanStep]

theorem cleanStep_dot (r : Bool) (st : List (List Char)) : cleanStep r st ['.'] = st := by
  simp [cleanStep]

theorem foldl_cleanStep_normal (r : Bool) (st ns : List (List Char))
    (h : ∀ s ∈ ns, NormalSeg s) : ns.foldl (cleanStep r) st = ns.reverse ++ st := by
  induction ns generalizing st with
  | nil => rfl
  | cons s ns ih =>
    rw [List.foldl_cons, cleanStep_normal r st (h s (List.mem_cons_self _ _)),
      ih _ (fun x hx => h x (List.mem_cons_of_mem _ hx))]
    simp

theorem foldl_cleanStep_dotdot (j k : Nat) :
    (List.replicate k ['.', '.']).foldl (cleanStep false) (List.replicate j ['.', '.']) =
      List.replicate (j + k) ['.', '.'] := by
  induction k generalizing j with
  | zero => rfl
  | succ k ih =>
    rw [List.replicate_succ, List.foldl_cons]
    have hstep : cleanStep false (List.replicate j ['.', '.']) ['.', '.'] =
        List.replicate (j + 1) ['.', '.'] := by
      cases j with
      | zero => simp [cleanStep]
      | succ j => simp [cleanStep, List.replicate_succ]
    rw [hstep, ih]
    congr 1
    omega

theorem ValidId.id_normal {id : List Char} (h : ValidId id) : NormalSeg id := by
  refine ⟨h.1, ?_, ?_, h.id_no_slash⟩
  · rintro rfl
    have := h.2 '.' (by simp)
    simp [isAsciiDigit, Char.isDigit] at this
  · rintro rfl
    have := h.2 '.' (by simp)
    simp [isAsciiDigit, Char.isDigit] at this

theorem SpecFilename.normal {f : List Char} (h : SpecFilename f) : NormalSeg f := by
  refine ⟨?_, ?_, ?_, h.no_slash⟩
  · obtain ⟨stem, ext, rfl, _⟩ := h
    simp
  · obtain ⟨stem, ext, hf, hne, _, hlen, _⟩ := h
    intro e
    have := congrArg List.length hf
    rw [e] at this
    simp [hlen] at this
  · intro e
    exact h.no_dotdot (e ▸ List.infix_refl _)

theorem cleanStep_shape (r : Bool) (st : List (List Char)) (seg : List Char)
    (hst : CleanShape r st) (hseg : '/' ∉ seg) : CleanShape r (cleanStep r st seg) := by
  by_cases h1 : seg = [] ∨ seg = ['.']
  · simpa [cleanStep, h1] using hst
  · by_cases h2 : seg = ['.', '.']
    · subst h2
      obtain ⟨k, ns, rfl, hns, hk⟩ := hst
      cases ns with
      | nil =>
        cases k with
        | zero =>
          cases r with
          | true => exact ⟨0, [], by simp [cleanStep], by simp, fun _ => rfl⟩
          | false => exact ⟨1, [], by simp [cleanStep], by simp, by simp⟩
        | succ k =>
          have hr : r = false := by
            cases r with
            | true => exact absurd (hk rfl) (by omega)
            | false => rfl
          subst hr
          exact ⟨k + 2, [], by simp [cleanStep, List.replicate_succ], by simp, by simp⟩
      | cons top ns =>
        have htop : top ≠ ['.', '.'] := (hns top (List.mem_cons_self _ _)).2.2.1
        refine ⟨k, ns, by simp [cleanStep, htop], fun s hs => hns s (List.mem_cons_of_mem _ hs), hk⟩
    · obtain ⟨k, ns, rfl, hns, hk⟩ := hst
      have hn : NormalSeg seg := ⟨fun e => h1 (Or.inl e), fun e => h1 (Or.inr e), h2, hseg⟩
      rw [cleanStep_normal r _ hn]
      refine ⟨k, seg :: ns, by simp, ?_, hk⟩
      intro s hs
      rcases List.mem_cons.1 hs with rfl | hs
      · exact hn
      · exact hns s hs

theorem foldl_cleanStep_shape (r : Bool) (st segs : List (List Char))
    (hst : CleanShape r st) (h : ∀ s ∈ segs, '/' ∉ s) :
    CleanShape r (segs.foldl (cleanStep r) st) := by
  induction segs generalizing st with
  | nil => exact hst
  | cons s segs ih =>
    rw [List.foldl_cons]
    exact ih _ (cleanStep_shape r st s hst (h s (List.mem_cons_self _ _)))
      (fun x hx => h x (List.mem_cons_of_mem _ hx))

theorem cleanShape_nil (r : Bool) : CleanShape r [] :=
  ⟨0, [], rfl, by simp, fun _ => rfl⟩

theorem CleanShape.mem {r : Bool} {st : List (List Char)} (h : CleanShape r st) :
    ∀ s ∈ st, s ≠ [] ∧ s ≠ ['.'] ∧ '/' ∉ s := by
  obtain ⟨k, ns, rfl, hns, _⟩ := h
  intro s hs
  rcases List.mem_append.1 hs with hs | hs
  · exact ⟨(hns s hs).1, (hns s hs).2.1, (hns s hs).2.2.2⟩
  · rw [(List.mem_replicate.1 hs).2]
    exact ⟨by simp, by simp, by simp⟩

theorem CleanShape.refold {r : Bool} {st : List (List Char)} (h : CleanShape r st) :
    st.reverse.foldl (cleanStep r) [] = st := by
  obtain ⟨k, ns, rfl, hns, hk⟩ := h
  rw [List.reverse_append, List.reverse_replicate, List.foldl_append]
  have hdots : (List.replicate k ['.', '.']).foldl (cleanStep r) [] =
      List.replicate k ['.', '.'] := by
    cases r with
    | true => rw [hk rfl]; rfl
    | false =>
      have := foldl_cleanStep_dotdot 0 k
      simpa using this
  rw [hdots, foldl_cleanStep_normal r _ ns.reverse (fun s hs => hns s (List.mem_reverse.1 hs))]
  simp

theorem cleanSegs_shape (p : List Char) : CleanShape (isRooted p) (cleanSegs p).reverse := by
  unfold cleanSegs
  rw [List.reverse_reverse]
  exact foldl_cleanStep_shape _ _ _ (cleanShape_nil _) (splitSlash_no_slash p)

theorem isRooted_joinSlash (segs : List (List Char))
    (h : ∀ s ∈ segs, s ≠ [] ∧ '/' ∉ s) : isRooted (joinSlash segs) = false := by
  cases segs with
  | nil => rfl
  | cons s t =>
    obtain ⟨hne, hns⟩ := h s (List.mem_cons_self _ _)
    cases s with
    | nil => exact absurd rfl hne
    | cons c s =>
      have hc : c ≠ '/' := fun e => hns (e ▸ List.mem_cons_self _ _)
      cases t <;> simp [joinSlash, isRooted, hc]

theorem joinSlash_ne_nil (segs : List (List Char)) (hne : segs ≠ [])
    (h : ∀ s ∈ segs, s ≠ []) : joinSlash segs ≠ [] := by
  cases segs with
  | nil => exact absurd rfl hne
  | cons s t =>
    have := h s (List.mem_cons_self _ _)
    cases t <;> simp [joinSlash, this]

theorem Clean_idem_parts (p : List Char) :
    isRooted (Clean p) = isRooted p ∧ cleanSegs (Clean p) = cleanSegs p := by
  have hshape := cleanSegs_shape p
  have hmem : ∀ s ∈ cleanSegs p, s ≠ [] ∧ s ≠ ['.'] ∧ '/' ∉ s := fun s hs =>
    hshape.mem s (List.mem_reverse.2 hs)
  have hre := hshape.refold
  rw [List.reverse_reverse] at hre
  have hfold : ∀ q, isRooted q = isRooted p → splitSlash q = cleanSegs p ∨
      splitSlash q = [] :: cleanSegs p ∨ (cleanSegs p = [] ∧
        (splitSlash q = [['.']] ∨ splitSlash q = [[], []])) → cleanSegs q = cleanSegs p := by
    intro q hq hs
    have hq1 : cleanSegs q = ((splitSlash q).foldl (cleanStep (isRooted p)) []).reverse := by
      unfold cleanSegs
      rw [hq]
    rw [hq1]
    rcases hs with hs | hs | ⟨he, hs | hs⟩
    · rw [hs, hre, List.reverse_reverse]
    · rw [hs, List.foldl_cons, cleanStep_empty, hre, List.reverse_reverse]
    · rw [hs, he]; simp [cleanStep]
    · rw [hs, he]; simp [cleanStep]
  by_cases hr : isRooted p = true
  · have hC : Clean p = '/' :: joinSlash (cleanSegs p) := by simp [Clean, hr]
    have hroot : isRooted ('/' :: joinSlash (cleanSegs p)) = isRooted p := by rw [hr]; rfl
    rw [hC]
    refine ⟨hroot, hfold _ hroot ?_⟩
    by_cases he : cleanSegs p = []
    · right; right
      exact ⟨he, Or.inr (by simp [he, joinSlash, splitSlash])⟩
    · right; left
      have := splitSlash_joinSlash _ he (fun s hs => (hmem s hs).2.2)
      simp [splitSlash, this]
  · have hr1 : isRooted p = false := by simpa using hr
    by_cases he : cleanSegs p = []
    · have hC : Clean p = ['.'] := by simp [Clean, hr1, he, joinSlash]
      have hroot : isRooted ['.'] = isRooted p := by rw [hr1]; rfl
      rw [hC]
      exact ⟨hroot, hfold _ hroot (Or.inr (Or.inr ⟨he, Or.inl rfl⟩))⟩
    · have hj := joinSlash_ne_nil _ he (fun s hs => (hmem s hs).1)
      have hC : Clean p = joinSlash (cleanSegs p) := by simp [Clean, hr1, hj]
      rw [hC]
      have hroot : isRooted (joinSlash (cleanSegs p)) = isRooted p := by
        rw [hr1]
        exact isRooted_joinSlash _ (fun s hs => ⟨(hmem s hs).1, (hmem s hs).2.2⟩)
      exact ⟨hroot, hfold _ hroot
        (Or.inl (splitSlash_joinSlash _ he (fun s hs => (hmem s hs).2.2)))⟩

theorem Clean_congr {p q : List Char} (hr : isRooted p = isRooted q)
    (hs : cleanSegs p = cleanSegs q) : Clean p = Clean q := by
  simp only [Clean, hr, hs]

/-! ## Paths below the storage root -/

theorem isRooted_append (dir rest : List Char) (hdir : dir ≠ []) :
    isRooted (dir ++ rest) = isRooted dir := by
  cases dir with
  | nil => exact absurd rfl hdir
  | cons c dir => rfl

theorem cleanSegs_append (dir rest : List Char) (hdir : dir ≠ []) :
    cleanSegs (dir ++ '/' :: rest) =
      ((splitSlash rest).foldl (cleanStep (isRooted dir)) (cleanSegs dir).reverse).reverse := by
  unfold cleanSegs
  rw [isRooted_append dir _ hdir, splitSlash_append_slash, List.foldl_append, List.reverse_reverse]

theorem splitSlash_pair {id f : List Char} (hid : NormalSeg id) (hf : NormalSeg f) :
    splitSlash (id ++ '/' :: f) = [id, f] := by
  rw [splitSlash_append_slash, splitSlash_of_no_slash hid.2.2.2, splitSlash_of_no_slash hf.2.2.2]
  rfl

theorem foldl_pair (r : Bool) (st : List (List Char)) {id f : List Char}
    (hid : NormalSeg id) (hf : NormalSeg f) :
    [id, f].foldl (cleanStep r) st = f :: id :: st := by
  simp [List.foldl, cleanStep_normal r _ hid, cleanStep_normal r _ hf]

theorem cleanSegs_under (dir : List Char) {id f : List Char} (hdir : dir ≠ [])
    (hid : NormalSeg id) (hf : NormalSeg f) :
    cleanSegs (dir ++ '/' :: (id ++ '/' :: f)) = cleanSegs dir ++ [id, f] := by
  rw [cleanSegs_append dir _ hdir, splitSlash_pair hid hf, foldl_pair _ _ hid hf]
  simp

theorem cleanSegs_under_slash (dir : List Char) {id f : List Char} (hdir : dir ≠ [])
    (hid : NormalSeg id) (hf : NormalSeg f) :
    cleanSegs (dir ++ '/' :: '/' :: (id ++ '/' :: f)) = cleanSegs dir ++ [id, f] := by
  rw [cleanSegs_append dir _ hdir]
  have : splitSlash ('/' :: (id ++ '/' :: f)) = [] :: [id, f] := by
    simp [splitSlash, splitSlash_pair hid hf]
  rw [this, List.foldl_cons, cleanStep_empty, foldl_pair _ _ hid hf]
  simp

theorem isRooted_pair {id f : List Char} (hid : NormalSeg id) :
    isRooted (id ++ '/' :: f) = false := by
  obtain ⟨hne, _, _, hns⟩ := hid
  cases id with
  | nil => exact absurd rfl hne
  | cons c id =>
    have hc : c ≠ '/' := fun e => hns (e ▸ List.mem_cons_self _ _)
    simp [isRooted, hc]

theorem cleanSegs_pair {id f : List Char} (hid : NormalSeg id) (hf : NormalSeg f) :
    cleanSegs (id ++ '/' :: f) = [id, f] := by
  unfold cleanSegs
  rw [splitSlash_pair hid hf, foldl_pair _ _ hid hf]
  rfl

theorem Clean_rooted_pair {id f : List Char} (hid : NormalSeg id) (hf : NormalSeg f) :
    Clean ('/' :: (id ++ '/' :: f)) = '/' :: (id ++ '/' :: f) := by
  have hs : cleanSegs ('/' :: (id ++ '/' :: f)) = [id, f] := by
    unfold cleanSegs
    have : splitSlash ('/' :: (id ++ '/' :: f)) = [] :: [id, f] := by
      simp [splitSlash, splitSlash_pair hid hf]
    rw [this, List.foldl_cons, cleanStep_empty, foldl_pair _ _ hid hf]
    rfl
  simp [Clean, hs, isRooted, joinSlash]

theorem Clean_rooted_slash_pair {id f : List Char} (hid : NormalSeg id) (hf : NormalSeg f) :
    Clean ('/' :: '/' :: (id ++ '/' :: f)) = '/' :: (id ++ '/' :: f) := by
  have hs : cleanSegs ('/' :: '/' :: (id ++ '/' :: f)) = [id, f] := by
    unfold cleanSegs
    have : splitSlash ('/' :: '/' :: (id ++ '/' :: f)) = [] :: [] :: [id, f] := by
      simp [splitSlash, splitSlash_pair hid hf]
    rw [this, List.foldl_cons, cleanStep_empty, List.foldl_cons, cleanStep_empty,
      foldl_pair _ _ hid hf]
    rfl
  simp [Clean, hs, isRooted, joinSlash]

/-- The directory `http.Dir` works in: `.` for the empty string. -/
theorem dirOf_ne_nil (base : List Char) : (if base = [] then ['.'] else base) ≠ [] := by
  split
  · simp
  · assumption

theorem fileServerName_eq (base : List Char) {id f : List Char}
    (hid : NormalSeg id) (hf : NormalSeg f) :
    fileServerName base (id ++ '/' :: f) =
      Clean ((if base = [] then ['.'] else base) ++ '/' :: (id ++ '/' :: f)) := by
  have hd := dirOf_ne_nil base
  unfold fileServerName dirOpenName Join
  simp only [isRooted_pair hid, Bool.false_eq_true, if_false, Clean_rooted_pair hid hf,
    Clean_rooted_slash_pair hid hf]
  rw [List.dropWhile_cons_of_neg (by simpa using hd)]
  simp only [joinSlash]
  exact Clean_congr (by rw [isRooted_append _ _ hd, isRooted_append _ _ hd])
    (by rw [cleanSegs_under_slash _ hd hid hf, cleanSegs_under _ hd hid hf])

theorem target_parts (base : List Char) {id f : List Char}
    (hid : NormalSeg id) (hf : NormalSeg f) :
    isRooted (Clean ((if base = [] then ['.'] else base) ++ '/' :: (id ++ '/' :: f)))
        = isRooted base ∧
      cleanSegs (Clean ((if base = [] then ['.'] else base) ++ '/' :: (id ++ '/' :: f)))
        = cleanSegs base ++ [id, f] := by
  have hd := dirOf_ne_nil base
  obtain ⟨h1, h2⟩ := Clean_idem_parts ((if base = [] then ['.'] else base) ++ '/' :: (id ++ '/' :: f))
  rw [h1, h2, isRooted_append _ _ hd, cleanSegs_under _ hd hid hf]
  by_cases hb : base = []
  · subst hb
    simp [isRooted, cleanSegs, splitSlash, cleanStep]
  · simp [hb]

theorem isDescendant_of (root p : List Char) {id f : List Char}
    (hr : isRooted p = isRooted root) (hs : cleanSegs p = cleanSegs root ++ [id, f])
    (hid : NormalSeg id) (hf : NormalSeg f) : isDescendant root p = true := by
  unfold isDescendant
  simp only [hr, hs, beq_self_eq_true, Bool.true_and, List.drop_left, List.length_append,
    List.length_cons, List.length_nil, Bool.and_eq_true, decide_eq_true_eq, Bool.not_eq_true',
    List.isPrefixOf_iff_prefix]
  refine ⟨⟨List.prefix_append _ _, by omega⟩, ?_⟩
  have h1 : id ≠ ['.', '.'] := hid.2.2.1
  have h2 : f ≠ ['.', '.'] := hf.2.2.1
  have e1 : ((['.', '.'] : List Char) == id) = false := beq_eq_false_iff_ne.2 (Ne.symm h1)
  have e2 : ((['.', '.'] : List Char) == f) = false := beq_eq_false_iff_ne.2 (Ne.symm h2)
  simp [List.contains, List.elem, e1, e2]

theorem Join_base (base : List Char) {id f : List Char}
    (hid : NormalSeg id) (hf : NormalSeg f) :
    Join [base, id, f] =
      Clean ((if base = [] then ['.'] else base) ++ '/' :: (id ++ '/' :: f)) := by
  unfold Join
  by_cases hb : base = []
  · subst hb
    have hne : id ≠ [] := hid.1
    rw [List.dropWhile_cons_of_pos (by simp), List.dropWhile_cons_of_neg (by simpa using hne)]
    simp only [joinSlash, if_true]
    refine Clean_congr ?_ ?_
    · rw [isRooted_pair hid, isRooted_append _ _ (by simp)]
      rfl
    · rw [cleanSegs_pair hid hf, cleanSegs_under _ (by simp) hid hf]
      simp [cleanSegs, splitSlash, cleanStep, isRooted]
  · rw [List.dropWhile_cons_of_neg (by simpa using hb)]
    simp [joinSlash, hb]

/-! ## Decimal ids -/

theorem digitChar_isDigit (d : Nat) (h : d < 10) : isAsciiDigit (Nat.digitChar d) = true := by
  interval_cases d <;> decide

theorem toDigitsCore_digits (fuel n : Nat) (ds : List Char)
    (h : ∀ c ∈ ds, isAsciiDigit c = true) :
    ∀ c ∈ Nat.toDigitsCore 10 fuel n ds, isAsciiDigit c = true := by
  induction fuel generalizing n ds with
  | zero => simpa [Nat.toDigitsCore] using h
  | succ fuel ih =>
    have hd : ∀ c ∈ Nat.digitChar (n % 10) :: ds, isAsciiDigit c = true := by
      intro c hc
      rcases List.mem_cons.1 hc with rfl | hc
      · exact digitChar_isDigit _ (Nat.mod_lt _ (by omega))
      · exact h c hc
    unfold Nat.toDigitsCore
    simp only
    split
    · exact hd
    · exact ih _ _ hd

theorem toDigitsCore_ne_nil (fuel n : Nat) (ds : List Char) (h : ds ≠ [] ∨ 0 < fuel) :
    Nat.toDigitsCore 10 fuel n ds ≠ [] := by
  induction fuel generalizing n ds with
  | zero =>
    rcases h with h | h
    · simpa [Nat.toDigitsCore] using h
    · omega
  | succ fuel ih =>
    unfold Nat.toDigitsCore
    simp only
    split
    · simp
    · exact ih _ _ (Or.inl (by simp))

theorem toDigits_valid (n : Nat) : ValidId (Nat.toDigits 10 n) :=
  ⟨toDigitsCore_ne_nil _ _ _ (Or.inr (by omega)), toDigitsCore_digits _ _ _ (by simp)⟩

theorem parseDecimal_fold (s : List Char) (h : ∀ c ∈ s, isAsciiDigit c = true) (n : Nat) :
    ∃ k, s.foldl (fun acc c =>
      acc.bind fun n => if inCls digitCls c then some (10 * n + (c.toNat - 48)) else none)
      (some n) = some k := by
  induction s generalizing n with
  | nil => exact ⟨n, rfl⟩
  | cons c s ih =>
    have hc : inCls digitCls c = true := by
      rw [inCls_digitCls]; exact h c (List.mem_cons_self _ _)
    simp only [List.foldl_cons, Option.bind_some, hc, if_true]
    exact ih (fun x hx => h x (List.mem_cons_of_mem _ hx)) _

theorem parseDecimal_valid {id : List Char} (h : ValidId id) : ∃ n, parseDecimal id = some n := by
  unfold parseDecimal
  rw [if_neg h.1]
  exact parseDecimal_fold id h.2 0

/-! ## The retrieval handler on a matching request -/

theorem trimPrefix_append (pre s : List Char) : trimPrefix pre (pre ++ s) = some s := by
  induction pre with
  | nil => rfl
  | cons c pre ih => simp [trimPrefix, ih]

theorem SpecFilename.matches {f : List Char} (h : SpecFilename f) :
    filenamePattern.matchString f = true :=
  (Re.matchString_iff _ _).2 ((lang_filenamePattern f).2 h)

theorem SpecFilename.specMatches {f : List Char} (h : SpecFilename f) :
    specFilenameRe.matchString f = true :=
  (Re.matchString_iff _ _).2 ((lang_specFilenameRe f).2 h)

theorem not_index_suffix {id f : List Char} (hf : SpecFilename f) :
    "/index.html".toList.isSuffixOf ('/' :: (id ++ '/' :: f)) = false := by
  rw [Bool.eq_false_iff]
  intro h
  rw [List.isSuffixOf_iff_suffix] at h
  obtain ⟨t, ht⟩ := h
  have h1 : f.reverse ++ '/' :: ('/' :: id).reverse =
      "index.html".toList.reverse ++ '/' :: t.reverse := by
    have := congrArg List.reverse ht
    simp only [List.reverse_append, List.reverse_cons, List.append_assoc] at this ⊢
    simpa using this.symm
  have h2 := (append_slash_inj (fun hm => hf.no_slash (List.mem_reverse.1 hm))
    (by decide) h1).1
  have h3 : f = "index.html".toList := by
    have := congrArg List.reverse h2
    simpa using this
  have h4 := hf.matches
  rw [h3] at h4
  exact absurd h4 (by decide)

theorem routerMatch_get_image {id f : List Char} (hid : ValidId id) (hf : SpecFilename f) :
    routerMatch sm "GET" (imagePath id f) = some Handler.FileServer := by
  rw [routerMatch_get]
  have : (compileTemplate getTemplate).matchString (imagePath id f) = true :=
    (images_match_iff id f).2 ⟨hid, hf⟩
  rw [if_pos this]

theorem getHandler_image (fs : FS) (base : List Char) {id f : List Char}
    (hid : ValidId id) (hf : SpecFilename f) :
    getHandler fs base (imagePath id f) =
      match fs.files (Clean ((if base = [] then ['.'] else base) ++ '/' :: (id ++ '/' :: f))) with
      | some content => Response.ok content
      | none => Response.notFound := by
  unfold getHandler StripPrefix
  have hp : trimPrefix "/images/".toList (imagePath id f) = some (id ++ '/' :: f) := by
    unfold imagePath
    rw [List.append_assoc]
    exact trimPrefix_append _ _
  rw [if_neg (by decide), hp]
  simp only [fileServer, isRooted_pair hid.id_normal, Bool.false_eq_true, if_false,
    not_index_suffix hf, fileServerName_eq base hid.id_normal hf.normal]

/-! ## The storage backend -/

theorem Copy_within (fs : FS) (dest : List Char) (limit written : Nat) (src : List (List Byte))
    (cur : List Byte) (hcur : fs.files dest = some cur)
    (h : written + src.flatten.length ≤ limit) :
    (Copy fs dest limit written src).1 = Except.ok (written + src.flatten.length) ∧
      (Copy fs dest limit written src).2.files dest = some (cur ++ src.flatten) := by
  induction src generalizing fs written cur with
  | nil => simp [Copy, hcur]
  | cons chunk rest ih =>
    simp only [List.flatten_cons, List.length_append] at h
    have hnot : ¬ limit < written + chunk.length := by omega
    have hcur1 : (fs.append dest chunk).files dest = some (cur ++ chunk) := by
      simp [FS.append, FS.write, hcur]
    have := ih (fs.append dest chunk) (written + chunk.length) (cur ++ chunk) hcur1 (by omega)
    simp only [Copy, hnot, if_false, List.flatten_cons, List.length_append]
    rw [this.1, this.2]
    exact ⟨by rw [Nat.add_assoc], by rw [List.append_assoc]⟩

theorem Copy_exceeds (fs : FS) (dest : List Char) (limit written : Nat) (src : List (List Byte))
    (hw : written ≤ limit) (h : limit < written + src.flatten.length) :
    (Copy fs dest limit written src).1 = Except.error StoreError.LimitExceeded ∧
      (Copy fs dest limit written src).2.files dest = none := by
  induction src generalizing fs written with
  | nil => simp at h; omega
  | cons chunk rest ih =>
    simp only [List.flatten_cons, List.length_append] at h
    by_cases hc : limit < written + chunk.length
    · simp [Copy, hc, FS.remove]
    · simp only [Copy, hc, if_false]
      exact ih _ _ (by omega) (by omega)

theorem Resolve_valid (base : List Char) (id : Nat) {f : List Char} (hf : SpecFilename f) :
    Resolve base id f = Except.ok (Join [base, Nat.toDigits 10 id, f]) := by
  have hid := (toDigits_valid id).id_normal
  unfold Resolve
  rw [if_pos hf.specMatches]
  have hd : isDescendant base (Join [base, Nat.toDigits 10 id, f]) = true := by
    rw [Join_base base hid hf.normal]
    obtain ⟨h1, h2⟩ := target_parts base hid hf.normal
    exact isDescendant_of _ _ h1 h2 hid hf.normal
  simp only [hd, if_true]

theorem Resolve_invalid (base : List Char) (id : Nat) {f : List Char} (hf : ¬ SpecFilename f) :
    Resolve base id f = Except.error StoreError.InvalidPath := by
  unfold Resolve
  have : ¬ specFilenameRe.matchString f = true := fun h =>
    hf ((lang_specFilenameRe f).1 ((Re.matchString_iff _ _).1 h))
  rw [if_neg this]

theorem Save_within (l : Local) (fs : FS) (id : Nat) {f : List Char} (src : List (List Byte))
    (hf : SpecFilename f) (h : src.flatten.length ≤ l.maxFileSize) :
    (l.Save fs id f src).1 = Except.ok () ∧
      (l.Save fs id f src).2.files (Join [l.basePath, Nat.toDigits 10 id, f]) =
        some src.flatten := by
  have hc := Copy_within (fs.write (Join [l.basePath, Nat.toDigits 10 id, f]) [])
    (Join [l.basePath, Nat.toDigits 10 id, f]) l.maxFileSize 0 src [] (by simp [FS.write])
    (by omega)
  unfold Local.Save
  rw [Resolve_valid l.basePath id hf]
  simp only
  revert hc
  generalize Copy (fs.write (Join [l.basePath, Nat.toDigits 10 id, f]) [])
    (Join [l.basePath, Nat.toDigits 10 id, f]) l.maxFileSize 0 src = r
  rcases r with ⟨r1, r2⟩
  rintro ⟨h1, h2⟩
  simp only at h1 h2
  subst h1
  simpa using h2

theorem Save_exceeds (l : Local) (fs : FS) (id : Nat) {f : List Char} (src : List (List Byte))
    (hf : SpecFilename f) (h : l.maxFileSize < src.flatten.length) :
    (l.Save fs id f src).1 = Except.error StoreError.LimitExceeded ∧
      (l.Save fs id f src).2.files (Join [l.basePath, Nat.toDigits 10 id, f]) = none := by
  have hc := Copy_exceeds (fs.write (Join [l.basePath, Nat.toDigits 10 id, f]) [])
    (Join [l.basePath, Nat.toDigits 10 id, f]) l.maxFileSize 0 src (by omega) (by omega)
  unfold Local.Save
  rw [Resolve_valid l.basePath id hf]
  simp only
  revert hc
  generalize Copy (fs.write (Join [l.basePath, Nat.toDigits 10 id, f]) [])
    (Join [l.basePath, Nat.toDigits 10 id, f]) l.maxFileSize 0 src = r
  rcases r with ⟨r1, r2⟩
  rintro ⟨h1, h2⟩
  simp only at h1 h2
  subst h1
  simpa using h2

theorem serveGet_image (fs : FS) (base : List Char) (id : Nat) {f : List Char}
    (hf : SpecFilename f) :
    serveGet fs base (imagePath (Nat.toDigits 10 id) f) =
      some (match fs.files (Join [base, Nat.toDigits 10 id, f]) with
        | some content => Response.ok content
        | none => Response.notFound) := by
  have hid := toDigits_valid id
  unfold serveGet
  rw [routerMatch_get_image hid hf]
  simp only
  rw [getHandler_image fs base hid hf, Join_base base hid.id_normal hf.normal]

theorem joinSlash_append (a b : List (List Char)) (ha : a ≠ []) (hb : b ≠ []) :
    joinSlash (a ++ b) = joinSlash a ++ '/' :: joinSlash b := by
  induction a with
  | nil => exact absurd rfl ha
  | cons s t ih =>
    cases t with
    | nil =>
      cases b with
      | nil => exact absurd rfl hb
      | cons s1 b => rfl
    | cons s1 t =>
      have := ih (by simp)
      show s ++ '/' :: joinSlash (s1 :: t ++ b) = (s ++ '/' :: joinSlash (s1 :: t)) ++ _
      rw [this, List.append_assoc]
      rfl

theorem Clean_below_clean_base (base : List Char) {id f : List Char}
    (hc : Clean base = base) (h1 : base ≠ ['.']) (h2 : base ≠ ['/'])
    (hid : NormalSeg id) (hf : NormalSeg f) :
    Clean (base ++ '/' :: (id ++ '/' :: f)) = base ++ '/' :: (id ++ '/' :: f) := by
  have hne : base ≠ [] := by
    rintro rfl
    exact absurd hc (by decide)
  have hr := isRooted_append base ('/' :: (id ++ '/' :: f)) hne
  have hs := cleanSegs_under base hne hid hf
  have hsegs : cleanSegs base ≠ [] := by
    intro he
    by_cases hroot : isRooted base = true
    · apply h2
      rw [← hc]
      simp [Clean, hroot, he, joinSlash]
    · apply h1
      rw [← hc]
      simp [Clean, hroot, he, joinSlash]
  have hj := joinSlash_append (cleanSegs base) [id, f] hsegs (by simp)
  have hjne : joinSlash (cleanSegs base) ≠ [] :=
    joinSlash_ne_nil _ hsegs (fun s hs => ((cleanSegs_shape base).mem s (List.mem_reverse.2 hs)).1)
  have hbase : base = if isRooted base = true then '/' :: joinSlash (cleanSegs base)
      else joinSlash (cleanSegs base) := by
    conv_lhs => rw [← hc]
    by_cases hroot : isRooted base = true
    · simp [Clean, hroot]
    · simp [Clean, hroot, hjne]
  by_cases hroot : isRooted base = true
  · rw [if_pos hroot] at hbase
    conv_rhs => rw [hbase]
    simp [Clean, hr, hs, hroot, hj, joinSlash]
  · rw [if_neg hroot] at hbase
    conv_rhs => rw [hbase]
    simp [Clean, hr, hs, hroot, hj, joinSlash, hjne]

/-! ## The claims -/

/-- C1: a filename that contains `..`, contains `/`, or contains a character
that is neither an ASCII letter nor `.` is matched by neither the upload
route nor the retrieval route, so for `/images/<id>/<filename>` neither a
`POST` nor a `GET` reaches a handler. -/
theorem traversal_filename_rejected (id f : List Char)
    (h : ['.', '.'] <:+: f ∨ '/' ∈ f ∨ ∃ c ∈ f, isAsciiLetter c = false ∧ c ≠ '.') :
    uploadRoute.matchPath (imagePath id f) = false ∧
      getRoute.matchPath (imagePath id f) = false ∧
      routerMatch sm "POST" (imagePath id f) = none ∧
      routerMatch sm "GET" (imagePath id f) = none := by
  have hnot : ¬ SpecFilename f := by
    intro hf
    rcases h with h | h | ⟨c, hc, h1, h2⟩
    · exact hf.no_dotdot h
    · exact hf.no_slash h
    · rcases hf.chars c hc with h3 | h3
      · rw [h1] at h3
        exact Bool.noConfusion h3
      · exact h2 h3
  have hm : (compileTemplate uploadTemplate).matchString (imagePath id f) = false := by
    rw [Bool.eq_false_iff]
    exact fun hmatch => hnot ((images_match_iff id f).1 hmatch).2
  have hroot : (compileTemplate multipartTemplate).matchString (imagePath id f) = false := by
    rw [Bool.eq_false_iff]
    exact fun hmatch => imagePath_ne_root id f ((multipart_match_iff _).1 hmatch)
  refine ⟨hm, hm, ?_, ?_⟩
  · rw [routerMatch_post, hm, hroot]
    rfl
  · rw [routerMatch_get]
    have : (compileTemplate getTemplate).matchString (imagePath id f) = false := hm
    rw [this]
    rfl

theorem traversal_filename_rejected_witness :
    '/' ∈ "../../etc/passwd".toList ∧
      routerMatch sm "POST" (imagePath "1".toList "../../etc/passwd".toList) = none ∧
      routerMatch sm "GET" (imagePath "1".toList "../../etc/passwd".toList) = none :=
  ⟨by decide,
    (traversal_filename_rejected "1".toList "../../etc/passwd".toList
      (Or.inr (Or.inl (by decide)))).2.2⟩

/-- C2: the filename variable of the upload route accepts a string exactly
when it is one or more ASCII letters, one `.`, and three lowercase ASCII
letters, the whole string being matched; for every id of decimal digits a
`POST` of `/images/<id>/<f>` reaches `UploadREST` exactly for such `f`. -/
theorem upload_filename_grammar (f : List Char) :
    (filenamePattern.matchString f = true ↔ SpecFilename f) ∧
      ∀ id, ValidId id →
        (routerMatch sm "POST" (imagePath id f) = some Handler.UploadREST ↔ SpecFilename f) := by
  refine ⟨by rw [Re.matchString_iff, lang_filenamePattern], ?_⟩
  intro id hid
  rw [routerMatch_post]
  constructor
  · intro h
    by_cases hm : (compileTemplate uploadTemplate).matchString (imagePath id f) = true
    · exact ((images_match_iff id f).1 hm).2
    · rw [if_neg hm] at h
      split at h <;> simp at h
  · intro hf
    rw [if_pos ((images_match_iff id f).2 ⟨hid, hf⟩)]

theorem upload_filename_grammar_witness :
    ValidId "1".toList ∧ SpecFilename "meow.png".toList ∧
      routerMatch sm "POST" (imagePath "1".toList "meow.png".toList) =
        some Handler.UploadREST :=
  have hid : ValidId "1".toList := ⟨by decide, by decide⟩
  have hf : SpecFilename "meow.png".toList :=
    ⟨"meow".toList, "png".toList, rfl, by decide, by decide, rfl, by decide⟩
  ⟨hid, hf, ((upload_filename_grammar "meow.png".toList).2 "1".toList hid).2 hf⟩

/-- C3: for an id of decimal digits and a filename of the grammar, a `GET`
of `/images/<id>/<filename>` reaches the file server, which strips
`/images/` and opens the cleaned form of `<basePath>/<id>/<filename>`
(that very string when the base path is itself clean and neither `.` nor
`/`); the opened location is lexically a descendant of the base path. -/
theorem get_resolves_below_base (fs : FS) (base id f : List Char)
    (hid : ValidId id) (hf : SpecFilename f) :
    serveGet fs base (imagePath id f) =
        some (match fs.files (fileServerName base (id ++ '/' :: f)) with
          | some content => Response.ok content
          | none => Response.notFound) ∧
      trimPrefix "/images/".toList (imagePath id f) = some (id ++ '/' :: f) ∧
      fileServerName base (id ++ '/' :: f) =
        Clean ((if base = [] then ['.'] else base) ++ '/' :: (id ++ '/' :: f)) ∧
      (Clean base = base → base ≠ ['.'] → base ≠ ['/'] →
        fileServerName base (id ++ '/' :: f) = base ++ '/' :: (id ++ '/' :: f)) ∧
      cleanSegs (fileServerName base (id ++ '/' :: f)) = cleanSegs base ++ [id, f] ∧
      isDescendant base (fileServerName base (id ++ '/' :: f)) = true := by
  have hname := fileServerName_eq base hid.id_normal hf.normal
  obtain ⟨h1, h2⟩ := target_parts base hid.id_normal hf.normal
  refine ⟨?_, ?_, hname, ?_, ?_, ?_⟩
  · unfold serveGet
    rw [routerMatch_get_image hid hf]
    simp only
    rw [getHandler_image fs base hid hf, hname]
  · unfold imagePath
    rw [List.append_assoc]
    exact trimPrefix_append _ _
  · intro hc hdot hroot
    have hne : base ≠ [] := by
      rintro rfl
      exact absurd hc (by decide)
    rw [hname, if_neg hne]
    exact Clean_below_clean_base base hc hdot hroot hid.id_normal hf.normal
  · rw [hname]
    exact h2
  · rw [hname]
    exact isDescendant_of _ _ h1 h2 hid.id_normal hf.normal

theorem get_resolves_below_base_witness :
    ValidId "1".toList ∧ SpecFilename "meow.png".toList ∧
      fileServerName "./imagestore".toList "1/meow.png".toList =
        "imagestore/1/meow.png".toList ∧
      isDescendant "./imagestore".toList
        (fileServerName "./imagestore".toList "1/meow.png".toList) = true :=
  have hid : ValidId "1".toList := ⟨by decide, by decide⟩
  have hf : SpecFilename "meow.png".toList :=
    ⟨"meow".toList, "png".toList, rfl, by decide, by decide, rfl, by decide⟩
  ⟨hid, hf, by decide,
    (get_resolves_below_base ⟨fun _ => none⟩ "./imagestore".toList "1".toList
      "meow.png".toList hid hf).2.2.2.2.2⟩

/-- C4: for a filename of the grammar and a stream longer than the size
ceiling, `Save` fails with `LimitExceeded`, afterwards no file exists at
`<basePath>/<id>/<filename>`, and a `GET` of that object finds nothing. -/
theorem save_over_limit_leaves_nothing (l : Local) (fs : FS) (id : Nat) (f : List Char)
    (src : List (List Byte)) (hf : SpecFilename f)
    (hsize : l.maxFileSize < src.flatten.length) :
    (l.Save fs id f src).1 = Except.error StoreError.LimitExceeded ∧
      (l.Save fs id f src).2.files (Join [l.basePath, Nat.toDigits 10 id, f]) = none ∧
      serveGet (l.Save fs id f src).2 l.basePath (imagePath (Nat.toDigits 10 id) f) =
        some Response.notFound := by
  obtain ⟨h1, h2⟩ := Save_exceeds l fs id src hf hsize
  refine ⟨h1, h2, ?_⟩
  rw [serveGet_image _ _ _ hf, h2]

theorem save_over_limit_leaves_nothing_witness :
    SpecFilename "meow.png".toList ∧
      (stor fun _ => none).maxFileSize < [List.replicate 6000000 (0 : Byte)].flatten.length ∧
      ((stor fun _ => none).Save ⟨fun _ => none⟩ 1 "meow.png".toList
        [List.replicate 6000000 0]).1 = Except.error StoreError.LimitExceeded ∧
      ((stor fun _ => none).Save ⟨fun _ => none⟩ 1 "meow.png".toList
        [List.replicate 6000000 0]).2.files
          (Join [(stor fun _ => none).basePath, Nat.toDigits 10 1, "meow.png".toList]) = none :=
  have hf : SpecFilename "meow.png".toList :=
    ⟨"meow".toList, "png".toList, rfl, by decide, by decide, rfl, by decide⟩
  have hlen : [List.replicate 6000000 (0 : Byte)].flatten.length = 6000000 := by
    rw [List.flatten_cons, List.flatten_nil, List.append_nil, List.length_replicate]
  have hlt : (stor fun _ => none).maxFileSize <
      [List.replicate 6000000 (0 : Byte)].flatten.length := by
    rw [hlen]
    decide
  have h := save_over_limit_leaves_nothing (stor fun _ => none) ⟨fun _ => none⟩ 1
    "meow.png".toList [List.replicate 6000000 0] hf hlt
  ⟨hf, hlt, h.1, h.2.1⟩

/-- C5: for a filename of the grammar and a stream of at most the size
ceiling, `Save` succeeds, the stored file holds exactly the streamed bytes,
and a following `GET` of `/images/<id>/<filename>` returns them unchanged. -/
theorem save_then_get_round_trip (l : Local) (fs : FS) (id : Nat) (f : List Char)
    (src : List (List Byte)) (hf : SpecFilename f)
    (hsize : src.flatten.length ≤ l.maxFileSize) :
    (l.Save fs id f src).1 = Except.ok () ∧
      l.Get (l.Save fs id f src).2 (Join [l.basePath, Nat.toDigits 10 id, f]) =
        Except.ok src.flatten ∧
      serveGet (l.Save fs id f src).2 l.basePath (imagePath (Nat.toDigits 10 id) f) =
        some (Response.ok src.flatten) := by
  obtain ⟨h1, h2⟩ := Save_within l fs id src hf hsize
  refine ⟨h1, ?_, ?_⟩
  · simp [Local.Get, h2]
  · rw [serveGet_image _ _ _ hf, h2]

theorem save_then_get_round_trip_witness :
    SpecFilename "meow.png".toList ∧
      [List.replicate 4000000 (0 : Byte)].flatten.length ≤ (stor fun _ => none).maxFileSize ∧
      ((stor fun _ => none).Save ⟨fun _ => none⟩ 1 "meow.png".toList
        [List.replicate 4000000 0]).1 = Except.ok () ∧
      serveGet ((stor fun _ => none).Save ⟨fun _ => none⟩ 1 "meow.png".toList
        [List.replicate 4000000 0]).2 (stor fun _ => none).basePath
          (imagePath (Nat.toDigits 10 1) "meow.png".toList) =
        some (Response.ok [List.replicate 4000000 (0 : Byte)].flatten) :=
  have hf : SpecFilename "meow.png".toList :=
    ⟨"meow".toList, "png".toList, rfl, by decide, by decide, rfl, by decide⟩
  have hlen : [List.replicate 4000000 (0 : Byte)].flatten.length = 4000000 := by
    rw [List.flatten_cons, List.flatten_nil, List.append_nil, List.length_replicate]
  have hle : [List.replicate 4000000 (0 : Byte)].flatten.length ≤
      (stor fun _ => none).maxFileSize := by
    rw [hlen]
    decide
  have h := save_then_get_round_trip (stor fun _ => none) ⟨fun _ => none⟩ 1
    "meow.png".toList [List.replicate 4000000 0] hf hle
  ⟨hf, hle, h.1, h.2.2⟩

/-- C6: the size limit handed to `files.NewLocal` is `1024*1000*5`, that is
5,120,000 bytes, which is neither 5 × 1024 × 1024 nor 5 × 1000 × 1000. -/
theorem max_file_size_value (e : Env) :
    (stor e).maxFileSize = 5120000 ∧ (stor e).maxFileSize ≠ 5 * 1024 * 1024 ∧
      (stor e).maxFileSize ≠ 5 * 1000 * 1000 := by
  simp [stor, NewLocal, maxFileSize]

/-- C7: the retrieval route accepts exactly the paths the upload route
accepts, so a `GET` reaches the file server exactly for the paths on which
a `POST` reaches `UploadREST`. -/
theorem retrieval_same_grammar (p : List Char) :
    getRoute.matchPath p = uploadRoute.matchPath p ∧
      (routerMatch sm "GET" p = some Handler.FileServer ↔
        routerMatch sm "POST" p = some Handler.UploadREST) := by
  refine ⟨rfl, ?_⟩
  rw [routerMatch_get, routerMatch_post]
  have hsame : (compileTemplate getTemplate).matchString p =
      (compileTemplate uploadTemplate).matchString p := rfl
  rw [hsame]
  by_cases hm : (compileTemplate uploadTemplate).matchString p = true
  · simp [hm]
  · simp only [hm, Bool.false_eq_true, if_false, reduceCtorEq, false_iff]
    split <;> simp

/-- C8, at the id `0`: the retrieval route matches `/images/0/meow.png`,
whose id segment has the value zero, so not every accepted id is
positive. -/
theorem id_zero_accepted :
    ¬ (routerMatch sm "GET" (imagePath "0".toList "meow.png".toList) = some Handler.FileServer →
      ∃ n, parseDecimal "0".toList = some n ∧ 0 < n) := by
  intro h
  obtain ⟨n, hn, hpos⟩ := h (by decide)
  have h0 : parseDecimal "0".toList = some 0 := by decide
  rw [h0] at hn
  have := Option.some.inj hn
  omega

/-- C8, amended: every id segment that the upload route or the retrieval
route matches is a non-empty string of ASCII decimal digits and parses as
a decimal natural number (zero included). -/
theorem accepted_id_is_decimal (m : String) (id f : List Char) (h : Handler)
    (hmatch : routerMatch sm m (imagePath id f) = some h) :
    ValidId id ∧ ∃ n, parseDecimal id = some n ∧ 0 ≤ n := by
  have hm : (compileTemplate uploadTemplate).matchString (imagePath id f) = true := by
    by_contra hno
    have hroot : ¬ (compileTemplate multipartTemplate).matchString (imagePath id f) = true :=
      fun hmm => imagePath_ne_root id f ((multipart_match_iff _).1 hmm)
    by_cases hg : m = "GET"
    · subst hg
      rw [routerMatch_get] at hmatch
      have : ¬ (compileTemplate getTemplate).matchString (imagePath id f) = true := hno
      rw [if_neg this] at hmatch
      exact Option.noConfusion hmatch
    · by_cases hp : m = "POST"
      · subst hp
        rw [routerMatch_post, if_neg hno, if_neg hroot] at hmatch
        exact Option.noConfusion hmatch
      · rw [routerMatch_other m _ hg hp] at hmatch
        exact Option.noConfusion hmatch
  have hid := ((images_match_iff id f).1 hm).1
  obtain ⟨n, hn⟩ := parseDecimal_valid hid
  exact ⟨hid, n, hn, Nat.zero_le n⟩

theorem accepted_id_is_decimal_witness :
    routerMatch sm "GET" (imagePath "0".toList "meow.png".toList) = some Handler.FileServer ∧
      ValidId "0".toList ∧ ∃ n, parseDecimal "0".toList = some n ∧ 0 ≤ n :=
  ⟨by decide,
    accepted_id_is_decimal "GET" "0".toList "meow.png".toList Handler.FileServer (by decide)⟩

/-- C9, as stated, fails twice.  For the size limit: no environment
variable, set to a decimal number, makes the server use that number as its
maximum file size (with every variable set to `1` the limit is still
5,120,000).  For the base path: with `BASE_PATH` set to the empty string
the server does not use that value but the default `./imagestore`. -/
theorem settings_not_all_from_environment :
    (¬ ∃ name : List Char, ∀ (e : Env) (v : List Char) (n : Nat), e name = some v →
        parseDecimal v = some n → (loadConfig e).maxFileSize = n) ∧
      (loadConfig fun _ => some "1".toList).maxFileSize = 5120000 ∧
      ¬ ((fun n => if n = "BASE_PATH".toList then some [] else none : Env)
            "BASE_PATH".toList = some [] →
          (loadConfig fun n => if n = "BASE_PATH".toList then some [] else none).basePath
            = []) := by
  refine ⟨?_, rfl, ?_⟩
  · rintro ⟨name, h⟩
    have h1 := h (fun _ => some "1".toList) "1".toList 1 rfl (by decide)
    revert h1
    decide
  · intro h
    have h1 := h (by decide)
    revert h1
    decide

/-- C9, amended: bind address, log level and base path each take the value
of `BIND_ADDRESS`, `LOG_LEVEL`, `BASE_PATH` when it is set to a non-empty
string, and the defaults `:9091`, `debug`, `./imagestore` when it is unset
or set to the empty string; the maximum file size is the constant 5,120,000
whatever the environment. -/
theorem config_from_environment (e : Env) :
    (∀ v, v ≠ [] → e "BIND_ADDRESS".toList = some v → (loadConfig e).bindAddress = v) ∧
      (e "BIND_ADDRESS".toList = none ∨ e "BIND_ADDRESS".toList = some [] →
        (loadConfig e).bindAddress = ":9091".toList) ∧
      (∀ v, v ≠ [] → e "LOG_LEVEL".toList = some v → (loadConfig e).logLevel = v) ∧
      (e "LOG_LEVEL".toList = none ∨ e "LOG_LEVEL".toList = some [] →
        (loadConfig e).logLevel = "debug".toList) ∧
      (∀ v, v ≠ [] → e "BASE_PATH".toList = some v → (loadConfig e).basePath = v) ∧
      (e "BASE_PATH".toList = none ∨ e "BASE_PATH".toList = some [] →
        (loadConfig e).basePath = "./imagestore".toList) ∧
      (loadConfig e).maxFileSize = 5120000 := by
  have key : ∀ name dflt : List Char,
      (∀ v, v ≠ [] → e name = some v → envString e name dflt = v) ∧
        (e name = none ∨ e name = some [] → envString e name dflt = dflt) := by
    intro name dflt
    constructor
    · intro v hv hset
      simp [envString, getenv, hset, hv]
    · rintro (hunset | hempty)
      · simp [envString, getenv, hunset]
      · simp [envString, getenv, hempty]
  exact ⟨(key _ _).1, (key _ _).2, (key _ _).1, (key _ _).2, (key _ _).1, (key _ _).2, rfl⟩

theorem config_from_environment_witness :
    (loadConfig fun n => if n = "BASE_PATH".toList then some "/data".toList else none).basePath
        = "/data".toList ∧
      (loadConfig fun n => if n = "BASE_PATH".toList then some "/data".toList else none).bindAddress
        = ":9091".toList ∧
      (loadConfig fun n => if n = "BASE_PATH".toList then some [] else none).basePath
        = "./imagestore".toList ∧
      (loadConfig fun n => if n = "BASE_PATH".toList then some "/data".toList else none).maxFileSize
        = 5120000 :=
  ⟨(config_from_environment
      fun n => if n = "BASE_PATH".toList then some "/data".toList else none).2.2.2.2.1
      "/data".toList (by decide) (by decide),
    (config_from_environment
      fun n => if n = "BASE_PATH".toList then some "/data".toList else none).2.1
      (Or.inl (by decide)),
    (config_from_environment
      fun n => if n = "BASE_PATH".toList then some [] else none).2.2.2.2.2.1
      (Or.inr (by decide)),
    (config_from_environment
      fun n => if n = "BASE_PATH".toList then some "/data".toList else none).2.2.2.2.2.2⟩

/-- C10: no route matches a request whose method is neither `GET` nor
`POST`, whatever its path; a `POST` reaches only `UploadREST` or
`UploadMultipart`, and a `GET` reaches only the file server. -/
theorem no_delete_endpoint :
    (∀ (m : String) (p : List Char), m ≠ "GET" → m ≠ "POST" → routerMatch sm m p = none) ∧
      (∀ (p : List Char) (h : Handler), routerMatch sm "POST" p = some h →
        h = Handler.UploadREST ∨ h = Handler.UploadMultipart) ∧
      (∀ (p : List Char) (h : Handler), routerMatch sm "GET" p = some h →
        h = Handler.FileServer) := by
  refine ⟨fun m p hg hp => routerMatch_other m p hg hp, ?_, ?_⟩
  · intro p h hmatch
    rw [routerMatch_post] at hmatch
    split at hmatch
    · exact Or.inl (Option.some.inj hmatch).symm
    · split at hmatch
      · exact Or.inr (Option.some.inj hmatch).symm
      · exact Option.noConfusion hmatch
  · intro p h hmatch
    rw [routerMatch_get] at hmatch
    split at hmatch
    · exact (Option.some.inj hmatch).symm
    · exact Option.noConfusion hmatch

theorem no_delete_endpoint_witness :
    "DELETE" ≠ "GET" ∧ "DELETE" ≠ "POST" ∧
      routerMatch sm "DELETE" "/images/1/meow.png".toList = none ∧
      routerMatch sm "PUT" "/images/1/meow.png".toList = none :=
  ⟨by decide, by decide,
    no_delete_endpoint.1 "DELETE" "/images/1/meow.png".toList (by decide) (by decide),
    no_delete_endpoint.1 "PUT" "/images/1/meow.png".toList (by decide) (by decide)⟩

end ProductImages
